import Mathlib

/-!
A shallow embedding of the `lily` L-system engine (`src/system.rs`, driven by
`src/main.rs`) together with proofs about it.

Modelling conventions:
* Rust `String`/`&str` values are embedded as `List Char`; byte positions are
  tracked through `lenUtf8`, the embedding of `char::len_utf8`.
* Rust `f32` scalars are embedded as `ℚ`.  No theorem below depends on
  floating-point rounding: the verified properties concern list lengths,
  index values, stack shapes and exact string rewriting.
* `usize` subtraction is embedded checked: `Option` is `none` exactly where
  the Rust expression `a - b` would underflow (a panic under overflow
  checks, a wraparound otherwise).
* `u32` casts (`len as u32`) and `u32` addition wrap, embedded with `% 2^32`.
* The trigonometric rotation `Matrix::from_angle (angle.to_radians())` from
  the `ori` library has no exact rational embedding; it is passed to the
  mesh builder as an explicit function parameter `fa`, and no theorem
  depends on its values.
* Rust `Vec` used as a stack is embedded as a `List` whose head is the top
  of the stack (the `Vec`'s last element).
-/

namespace Lily

/-- Embedding of Rust `char::len_utf8`: the UTF-8 byte length of a scalar
value, from the codepoint ranges. -/
def lenUtf8 (c : Char) : Nat :=
  if c.val.toNat < 0x80 then 1
  else if c.val.toNat < 0x800 then 2
  else if c.val.toNat < 0x10000 then 3
  else 4

/-- Byte length of a string (Rust `str::len`). -/
def bytesLen (l : List Char) : Nat :=
  (l.map lenUtf8).sum

/-- Embedding of Rust `str::trim` (whitespace stripped from both ends; the
inputs of interest use ASCII whitespace, covered by `Char.isWhitespace`). -/
def trim (l : List Char) : List Char :=
  ((l.dropWhile Char.isWhitespace).reverse.dropWhile Char.isWhitespace).reverse

/-- Split a string at every newline character, keeping empty segments; every
segment but the last was terminated by a `\n` in the input. -/
def splitNl : List Char → List (List Char)
  | [] => [[]]
  | c :: rest =>
    if c = '\n' then [] :: splitNl rest
    else
      match splitNl rest with
      | [] => [[c]]
      | s :: ss => (c :: s) :: ss

/-- Strip one trailing carriage return, for `\r\n` line endings. -/
def stripCr (l : List Char) : List Char :=
  if l.getLast? = some '\r' then l.dropLast else l

/-- Embedding of Rust `str::lines`: split on `\n`, treat `\r\n` as a line
ending, and do not produce a final empty line for a trailing newline. -/
def linesOf (l : List Char) : List (List Char) :=
  let ss := splitNl l
  let withNl := ss.dropLast.map stripCr
  match ss.getLast? with
  | some last => if last = [] then withNl else withNl ++ [last]
  | none => withNl

/-- The rule separator token `"->"`. -/
def arrow : List Char := ['-', '>']

/-- One call to `next()` on Rust's `str::split` iterator: the segment before
the first occurrence of `sep`, and — when `sep` occurs — the remainder after
it (`none` when `sep` does not occur, so the whole input is the only
segment). -/
def splitNext (sep : List Char) : List Char → List Char × Option (List Char)
  | [] => ([], none)
  | c :: rest =>
    if sep.isPrefixOf (c :: rest) then ([], some ((c :: rest).drop sep.length))
    else
      let (seg, r) := splitNext sep rest
      (c :: seg, r)

/-- Whether `sep` occurs as a contiguous subsequence (Rust
`str::contains`). -/
def containsSeq (sep l : List Char) : Bool :=
  l.tails.any (fun t => sep.isPrefixOf t)

/-- Embedding of `Rule` from `src/system.rs`. -/
structure Rule where
  rule : List Char
  replace : List Char
deriving DecidableEq, Repr

/-- Embedding of `Rule::parse`: `input.split("->")` consulted twice via
`next()`; both segments trimmed; `None` when the separator is absent (the
second `next()` fails). -/
def Rule.parse (input : List Char) : Option Rule :=
  let first := splitNext arrow input
  match first.2 with
  | none => none
  | some rest =>
    let second := splitNext arrow rest
    some ⟨trim first.1, trim second.1⟩

/-- Embedding of `Rules` from `src/system.rs`. -/
structure Rules where
  rules : List Rule
deriving DecidableEq, Repr

/-- Embedding of `Rules::parse`: parse line by line, keeping the rules of the
lines that parse, in order. -/
def Rules.parse (input : List Char) : Rules :=
  ⟨(linesOf input).filterMap Rule.parse⟩

/-- The inner `for rule in &self.rules { ... break; }` loop of
`Rules::apply`: the first listed rule whose pattern is a literal prefix of
the rest of the input. -/
def findRule (rules : List Rule) (s : List Char) : Option Rule :=
  rules.find? (fun r => r.rule.isPrefixOf s)

/-- The scan loop of `Rules::apply` over the remaining input, carrying the
`skip` byte counter.  The two `usize` subtractions of the source
(`skip -= c.len_utf8()` and `skip = rule.rule.len() - c.len_utf8()`) are
checked: the result is `none` exactly where they would underflow. -/
def applyGo (rules : List Rule) : List Char → Nat → Option (List Char)
  | [], _ => some []
  | c :: rest, skip =>
    if 0 < skip then
      if lenUtf8 c ≤ skip then applyGo rules rest (skip - lenUtf8 c) else none
    else
      match findRule rules (c :: rest) with
      | some r =>
        if lenUtf8 c ≤ bytesLen r.rule then
          (applyGo rules rest (bytesLen r.rule - lenUtf8 c)).map
            (fun out => r.replace ++ out)
        else none
      | none => (applyGo rules rest 0).map (fun out => c :: out)

/-- Embedding of `Rules::apply`. -/
def Rules.apply (rs : Rules) (input : List Char) : Option (List Char) :=
  applyGo rs.rules input 0

/-- Embedding of `Instruction` from `src/system.rs`; the `f32` payloads are
embedded as `ℚ`. -/
inductive Instruction where
  | forward (length : ℚ)
  | turn (angle : ℚ)
  | scale (scale : ℚ)
  | push
  | pop
deriving DecidableEq, Repr

/-- Numeric value of a digit run (`none` when empty or a non-digit occurs). -/
def digitsVal : List Char → Option Nat
  | [] => none
  | [c] => if c.isDigit then some (c.toNat - '0'.toNat) else none
  | c :: rest =>
    if c.isDigit then
      (digitsVal rest).map (fun v => (c.toNat - '0'.toNat) * 10 ^ rest.length + v)
    else none

/-- Modelled from the spec: the standard library's `str::parse::<f32>` is not
part of this repository; the instruction grammar of §4.2/§6 takes "one
floating-point argument", and this models that parse on plain decimal
numerals (optional sign, integer digits, optional fraction), which covers
every numeral the program's instruction texts use. -/
def parseNum (l : List Char) : Option ℚ :=
  let (neg, body) :=
    match l with
    | '-' :: rest => (true, rest)
    | '+' :: rest => (false, rest)
    | _ => (false, l)
  let (intPart, fracPart) :=
    let s := splitNext ['.'] body
    match s.2 with
    | none => (s.1, ([] : List Char))
    | some f => (s.1, f)
  let value : Option ℚ :=
    match intPart, fracPart with
    | [], [] => none
    | _, [] => (digitsVal intPart).map (fun n => (n : ℚ))
    | [], _ => (digitsVal fracPart).map (fun f => (f : ℚ) / 10 ^ fracPart.length)
    | _, _ =>
      match digitsVal intPart, digitsVal fracPart with
      | some n, some f => some ((n : ℚ) + (f : ℚ) / 10 ^ fracPart.length)
      | _, _ => none
  value.map (fun v => if neg then -v else v)

/-- Embedding of `Instruction::parse`: the whitespace-token iterator is the
list of remaining tokens; `forward`/`turn`/`scale` consume one numeric
token, `push`/`pop` take none, anything else parses to nothing. -/
def Instruction.parse : List (List Char) → Option Instruction
  | [] => none
  | cmd :: rest =>
    if cmd = "forward".data then
      match rest with
      | arg :: _ => (parseNum arg).map Instruction.forward
      | [] => none
    else if cmd = "turn".data then
      match rest with
      | arg :: _ => (parseNum arg).map Instruction.turn
      | [] => none
    else if cmd = "scale".data then
      match rest with
      | arg :: _ => (parseNum arg).map Instruction.scale
      | [] => none
    else if cmd = "push".data then some Instruction.push
    else if cmd = "pop".data then some Instruction.pop
    else none

/-- Embedding of Rust `str::split_whitespace` (fuelled by the input length):
maximal runs of non-whitespace characters, empties dropped. -/
def wsTokensGo : Nat → List Char → List (List Char)
  | 0, _ => []
  | _ + 1, [] => []
  | n + 1, c :: rest =>
    if c.isWhitespace then wsTokensGo n rest
    else
      (c :: rest.takeWhile (fun d => ¬ d.isWhitespace)) ::
        wsTokensGo n (rest.dropWhile (fun d => ¬ d.isWhitespace))

/-- Embedding of Rust `str::split_whitespace`. -/
def wsTokens (l : List Char) : List (List Char) :=
  wsTokensGo l.length l

/-- Embedding of `Instructions::parse_instruction`: first token's first
character is the key, second token must be `=`, the rest parses as an
instruction. -/
def parse_instruction (input : List Char) : Option (Char × Instruction) :=
  match wsTokens input with
  | [] => none
  | key :: rest =>
    match key.head? with
    | none => none
    | some k =>
      match rest with
      | [] => none
      | eqTok :: rest2 =>
        if eqTok = ['='] then
          (Instruction.parse rest2).map (fun ins => (k, ins))
        else none

/-- Embedding of `Instructions` from `src/system.rs`.  The `HashMap` is
embedded as an association list where `insert` prepends, so a lookup finds
the most recent insertion for a key ("last insertion wins"), matching the
map's observable behaviour. -/
structure Instructions where
  instructions : List (Char × Instruction)
deriving DecidableEq, Repr

/-- Embedding of `HashMap::insert`. -/
def Instructions.insert (m : Instructions) (c : Char) (ins : Instruction) :
    Instructions :=
  ⟨(c, ins) :: m.instructions⟩

/-- Embedding of `HashMap::get`. -/
def Instructions.get (m : Instructions) (c : Char) : Option Instruction :=
  (m.instructions.find? (fun p => p.1 == c)).map (fun p => p.2)

/-- Embedding of `Instructions::parse`: parse line by line, inserting the
mapping of every line that parses. -/
def Instructions.parse (input : List Char) : Instructions :=
  (linesOf input).foldl
    (fun m line =>
      match parse_instruction line with
      | some (k, ins) => m.insert k ins
      | none => m)
    ⟨[]⟩

/-- Embedding of `Instructions::apply`: for each character in order, emit its
mapped instruction or nothing. -/
def Instructions.apply (m : Instructions) : List Char → List Instruction
  | [] => []
  | c :: rest =>
    match m.get c with
    | some ins => ins :: m.apply rest
    | none => m.apply rest

/-- Embedding of `ori`'s `Color` (used here only as a carried value: rgba components). -/
structure Color where
  r : ℚ
  g : ℚ
  b : ℚ
  a : ℚ
deriving DecidableEq, Repr

/-- Embedding of `ori`'s 2D `Point`. -/
structure Point where
  x : ℚ
  y : ℚ
deriving DecidableEq, Repr

/-- Embedding of `ori`'s 2D `Vector`. -/
structure Vector where
  x : ℚ
  y : ℚ
deriving DecidableEq, Repr

/-- Embedding of `ori`'s 2x2 `Matrix`. -/
structure Matrix where
  a : ℚ
  b : ℚ
  c : ℚ
  d : ℚ
deriving DecidableEq, Repr

def Point.zero : Point := ⟨0, 0⟩

/-- `Vector::NEG_X`. -/
def Vector.negX : Vector := ⟨-1, 0⟩

/-- `Vector::NEG_Y`. -/
def Vector.negY : Vector := ⟨0, -1⟩

/-- `Matrix::IDENTITY`. -/
def Matrix.identity : Matrix := ⟨1, 0, 0, 1⟩

/-- `Matrix * Vector`. -/
def Matrix.mulVec (m : Matrix) (v : Vector) : Vector :=
  ⟨m.a * v.x + m.b * v.y, m.c * v.x + m.d * v.y⟩

/-- `Matrix * Matrix`. -/
def Matrix.mul (m n : Matrix) : Matrix :=
  ⟨m.a * n.a + m.b * n.c, m.a * n.b + m.b * n.d,
   m.c * n.a + m.d * n.c, m.c * n.b + m.d * n.d⟩

/-- `Vector * f32`. -/
def Vector.smul (v : Vector) (s : ℚ) : Vector := ⟨v.x * s, v.y * s⟩

/-- `Vector / f32`. -/
def Vector.sdiv (v : Vector) (s : ℚ) : Vector := ⟨v.x / s, v.y / s⟩

/-- `Point + Vector`. -/
def Point.addVec (p : Point) (v : Vector) : Point := ⟨p.x + v.x, p.y + v.y⟩

/-- `Point - Vector`. -/
def Point.subVec (p : Point) (v : Vector) : Point := ⟨p.x - v.x, p.y - v.y⟩

/-- Embedding of `ori`'s `Vertex`. -/
structure Vertex where
  position : Point
  tex_coords : Point
  color : Color
deriving DecidableEq, Repr

/-- Embedding of `ori`'s `Mesh`: a vertex list and a `u32` triangle index
list. -/
structure Mesh where
  vertices : List Vertex
  indices : List Nat
deriving DecidableEq, Repr

/-- Embedding of `SystemOptions` from `src/system.rs`. -/
structure SystemOptions where
  branch_color : Color
  branch_width : ℚ
deriving DecidableEq, Repr

/-- Embedding of `Branch` from `src/system.rs` (`indecies` keeps the
source's spelling); the `[u32; 2]` trailing-edge indices are a pair. -/
structure Branch where
  indecies : Nat × Nat
  position : Point
  rotation : Matrix
  scale : ℚ
deriving DecidableEq, Repr

/-- Embedding of `apply_instruction` from `src/system.rs`.  `fa` embeds the
composite `Matrix::from_angle (angle.to_radians())` of the `Turn` arm —
trigonometric library code with no exact rational value, passed as a
parameter.  The stack's head is the `Vec`'s top (its last element); the
`let Some(branch) = stack.last_mut() else return` guard is the empty-stack
case, which leaves everything unchanged. -/
def apply_instruction (fa : ℚ → Matrix) (mesh : Mesh) (stack : List Branch)
    (options : SystemOptions) (instruction : Instruction) :
    Mesh × List Branch :=
  let depth := stack.length
  match stack with
  | [] => (mesh, stack)
  | branch :: rest =>
    match instruction with
    | .forward length0 =>
      let length := length0 * branch.scale
      let depth_scale : ℚ := (9 / 10) ^ depth
      let width := options.branch_width * depth_scale
      let forward := (branch.rotation.mulVec Vector.negY).smul length
      let left := ((branch.rotation.mulVec Vector.negX).smul width).sdiv 2
      let index := mesh.vertices.length % 2 ^ 32
      let vertices := mesh.vertices ++
        [⟨branch.position.addVec left, Point.zero, options.branch_color⟩,
         ⟨branch.position.subVec left, Point.zero, options.branch_color⟩]
      let indices := mesh.indices ++
        [branch.indecies.1, branch.indecies.2, index,
         branch.indecies.2, index, (index + 1) % 2 ^ 32]
      let branch' := { branch with
        indecies := (index, (index + 1) % 2 ^ 32)
        position := branch.position.addVec forward }
      (⟨vertices, indices⟩, branch' :: rest)
    | .turn angle =>
      (mesh, { branch with rotation := branch.rotation.mul (fa angle) } :: rest)
    | .scale s =>
      (mesh, { branch with scale := branch.scale * s } :: rest)
    | .push => (mesh, branch :: branch :: rest)
    | .pop => (mesh, rest)

/-- The state of `generate_mesh` from `src/system.rs` after the seed
vertices and the root branch are in place and all instructions have been
applied: the mesh together with the final branch stack. -/
def gen_state (fa : ℚ → Matrix) (options : SystemOptions)
    (instructions : List Instruction) : Mesh × List Branch :=
  let x := options.branch_width / 2
  let mesh0 : Mesh :=
    ⟨[⟨⟨-x, 0⟩, Point.zero, options.branch_color⟩,
      ⟨⟨x, 0⟩, Point.zero, options.branch_color⟩], []⟩
  let stack0 : List Branch := [⟨(0, 1), Point.zero, Matrix.identity, 1⟩]
  instructions.foldl
    (fun st ins => apply_instruction fa st.1 st.2 options ins)
    (mesh0, stack0)

/-- Embedding of `generate_mesh` from `src/system.rs`. -/
def generate_mesh (fa : ℚ → Matrix) (options : SystemOptions)
    (instructions : List Instruction) : Mesh :=
  (gen_state fa options instructions).1

/-- A concrete rotation interpretation used only to evaluate examples; no
counted quantity depends on rotation values. -/
def faId : ℚ → Matrix := fun _ => Matrix.identity

/-- The options of the worked examples: `branchWidth = 3.0` (the branch
color of `main.rs`, `hex("#6ac974")`, plays no role in any property here). -/
def exampleOptions : SystemOptions :=
  ⟨⟨106 / 255, 201 / 255, 116 / 255, 1⟩, 3⟩

/-- The root branch as seeded by `generate_mesh`. -/
def rootBranch : Branch := ⟨(0, 1), Point.zero, Matrix.identity, 1⟩

/-- The seed mesh of `generate_mesh` for the example options, before any
instruction runs. -/
def exampleMesh : Mesh := (gen_state faId exampleOptions []).1

/-! ## Theorems -/

/-- C1 counterexample: processing a single `Pop` from the seeded builder
state removes the root branch, leaving the stack empty — `Pop` on a stack
holding only the root is not a no-op. -/
theorem pop_on_root_removes_root :
    (gen_state faId exampleOptions [Instruction.pop]).2 = [] := by decide

/-- C1 (amended): `Pop` pops unconditionally, so when the stack holds only
the root branch it removes the root and leaves the stack empty; no error is
raised, and on the now-empty stack every subsequent instruction (Forward,
Turn, Scale, Push or Pop) is silently ignored, leaving mesh and stack
unchanged. -/
theorem pop_past_root_then_noops :
    (∀ (fa : ℚ → Matrix) (mesh : Mesh) (b : Branch) (options : SystemOptions),
      apply_instruction fa mesh [b] options .pop = (mesh, [])) ∧
    (∀ (fa : ℚ → Matrix) (mesh : Mesh) (options : SystemOptions)
      (ins : Instruction),
      apply_instruction fa mesh [] options ins = (mesh, [])) := by
  refine ⟨fun fa mesh b options => rfl, fun fa mesh options ins => rfl⟩

/-- C2 counterexample: in the sequence `[Pop, Forward 10]` the `Pop` empties
the stack, and the subsequent `Forward` appends no vertices and no indices
at all (the mesh keeps only its 2 seed vertices), so not every `Forward` in
every sequence appends 2 vertices and 6 indices. -/
theorem forward_after_excess_pop_appends_nothing :
    (generate_mesh faId exampleOptions
      [Instruction.pop, Instruction.forward 10]).vertices.length = 2 ∧
    (generate_mesh faId exampleOptions
      [Instruction.pop, Instruction.forward 10]).indices = [] := by decide

/-- C2 (amended): every `Forward` processed while the branch stack is
non-empty appends exactly 2 vertices and 6 indices to the mesh (a `Forward`
reached after excess `Pop`s have emptied the stack appends nothing); and the
mesh built from the single sequence `[Forward 10]` with branch width 3
contains exactly 4 vertices and 6 indices. -/
theorem forward_appends_two_vertices_six_indices :
    (∀ (fa : ℚ → Matrix) (mesh : Mesh) (stack : List Branch)
      (options : SystemOptions) (len : ℚ),
      stack ≠ [] →
      (apply_instruction fa mesh stack options
          (.forward len)).1.vertices.length = mesh.vertices.length + 2 ∧
      (apply_instruction fa mesh stack options
          (.forward len)).1.indices.length = mesh.indices.length + 6) ∧
    (generate_mesh faId exampleOptions [.forward 10]).vertices.length = 4 ∧
    (generate_mesh faId exampleOptions [.forward 10]).indices.length = 6 := by
  refine ⟨fun fa mesh stack options len h => ?_, by decide, by decide⟩
  cases stack with
  | nil => exact absurd rfl h
  | cons b rest => simp [apply_instruction]

/-- C2 witness. -/
theorem forward_appends_two_vertices_six_indices_witness :
    ([rootBranch] : List Branch) ≠ [] ∧
    ((apply_instruction faId exampleMesh [rootBranch] exampleOptions
        (.forward 10)).1.vertices.length = exampleMesh.vertices.length + 2 ∧
     (apply_instruction faId exampleMesh [rootBranch] exampleOptions
        (.forward 10)).1.indices.length = exampleMesh.indices.length + 6) :=
  ⟨by decide,
   forward_appends_two_vertices_six_indices.1 faId exampleMesh [rootBranch]
     exampleOptions 10 (by decide)⟩

/-- C3: the line `" -> X"` parses to a rule with an empty pattern, and
`Rules::apply` of that rule set on the input `"A"` hits the underflowing
`usize` subtraction `skip = rule.rule.len() - c.len_utf8()` (the checked
embedding returns `none` there), contradicting the no-fatal-error claim. -/
theorem empty_pattern_rule_underflows :
    Rules.parse " -> X".data = ⟨[⟨[], "X".data⟩]⟩ ∧
    Rules.apply (Rules.parse " -> X".data) "A".data = none := by decide

/-- C4 counterexample: `Rule::parse` on `"A -> B -> C"` yields the
replacement `"B"` — the text after the second separator is discarded — not
the claimed `"B -> C"`. -/
theorem rule_parse_drops_text_after_second_arrow :
    Rule.parse "A -> B -> C".data = some ⟨"A".data, "B".data⟩ ∧
    Rule.parse "A -> B -> C".data ≠ some ⟨"A".data, "B -> C".data⟩ := by
  decide

/-- Helper: occurrence test on a cons cell, unfolded one step. -/
theorem containsSeq_cons (sep : List Char) (c : Char) (l : List Char) :
    containsSeq sep (c :: l) = (sep.isPrefixOf (c :: l) || containsSeq sep l) := by
  simp [containsSeq, List.tails_cons]

/-- Helper: a string that does not contain the separator is returned whole
by the split iterator, with no second segment. -/
theorem splitNext_eq_of_not_contains (sep : List Char) :
    ∀ l, containsSeq sep l = false → splitNext sep l = (l, none) := by
  intro l
  induction l with
  | nil => intro _; rfl
  | cons c rest ih =>
    intro h
    rw [containsSeq_cons] at h
    obtain ⟨h1, h2⟩ := Bool.or_eq_false_iff.mp h
    simp [splitNext, h1, ih h2]

/-- Helper: `"->"` cannot become a prefix across the boundary of a
`"->"`-free string and a following `"->"`. -/
theorem arrow_not_prefix_shift (c : Char) (a' b : List Char)
    (h : containsSeq arrow (c :: a') = false) :
    arrow.isPrefixOf (c :: (a' ++ arrow ++ b)) = false := by
  cases hp : arrow.isPrefixOf (c :: (a' ++ arrow ++ b)) with
  | false => rfl
  | true =>
    exfalso
    cases a' with
    | nil => simp [arrow, List.isPrefixOf] at hp
    | cons d a'' =>
      simp only [List.cons_append, List.nil_append] at hp
      simp only [arrow, List.isPrefixOf, Bool.and_eq_true, beq_iff_eq] at hp
      obtain ⟨hc, hd, -⟩ := hp
      rw [containsSeq_cons] at h
      obtain ⟨h1, -⟩ := Bool.or_eq_false_iff.mp h
      simp [arrow, List.isPrefixOf, ← hc, ← hd] at h1

/-- Helper: the split iterator on `a ++ "->" ++ b` with `a` separator-free
returns `a` and the remainder `b`. -/
theorem splitNext_arrow_append (b : List Char) :
    ∀ a, containsSeq arrow a = false →
      splitNext arrow (a ++ arrow ++ b) = (a, some b) := by
  intro a
  induction a with
  | nil =>
    intro _
    show splitNext arrow (([] : List Char) ++ arrow ++ b) = ([], some b)
    simp [arrow, splitNext, List.isPrefixOf, List.drop]
  | cons c a' ih =>
    intro h
    have hp := arrow_not_prefix_shift c a' b h
    have h2 : containsSeq arrow a' = false := by
      rw [containsSeq_cons] at h
      exact (Bool.or_eq_false_iff.mp h).2
    have ih' := ih h2
    show splitNext arrow ((c :: a') ++ arrow ++ b) = (c :: a', some b)
    rw [List.cons_append, List.cons_append]
    simp only [splitNext, hp, Bool.false_eq_true, if_false, ih']

/-- Helper: a line with no separator produces no rule. -/
theorem rule_parse_no_sep (l : List Char) (h : containsSeq arrow l = false) :
    Rule.parse l = none := by
  simp [Rule.parse, splitNext_eq_of_not_contains arrow l h]

/-- Helper: a line with exactly one separator yields the trimmed sides. -/
theorem rule_parse_one_sep (a b : List Char) (ha : containsSeq arrow a = false)
    (hb : containsSeq arrow b = false) :
    Rule.parse (a ++ arrow ++ b) = some ⟨trim a, trim b⟩ := by
  simp only [Rule.parse, splitNext_arrow_append b a ha,
    splitNext_eq_of_not_contains arrow b hb]

/-- Helper: a line with two or more separators yields the trimmed first two
segments; the trailing text `c` is arbitrary (it may contain further
separators) and is discarded. -/
theorem rule_parse_two_sep (a b c : List Char)
    (ha : containsSeq arrow a = false) (hb : containsSeq arrow b = false) :
    Rule.parse (a ++ arrow ++ b ++ arrow ++ c) = some ⟨trim a, trim b⟩ := by
  have heq : a ++ arrow ++ b ++ arrow ++ c = a ++ arrow ++ (b ++ arrow ++ c) := by
    simp [List.append_assoc]
  rw [heq]
  simp only [Rule.parse, splitNext_arrow_append (b ++ arrow ++ c) a ha,
    splitNext_arrow_append c b hb]

/-- C4 (amended): `Rule::parse` splits its input on `"->"` and keeps only
the first two segments, trimmed: the text before the first separator is the
pattern, the text between the first and second separators is the
replacement, and anything after a second separator — however many further
separators it contains — is discarded, so `"A -> B -> C"` yields pattern
`"A"` and replacement `"B"`; a line without the separator produces no
rule. -/
theorem rule_parse_first_two_segments :
    (∀ l : List Char, containsSeq arrow l = false → Rule.parse l = none) ∧
    (∀ a b : List Char, containsSeq arrow a = false →
      containsSeq arrow b = false →
      Rule.parse (a ++ arrow ++ b) = some ⟨trim a, trim b⟩) ∧
    (∀ a b c : List Char, containsSeq arrow a = false →
      containsSeq arrow b = false →
      Rule.parse (a ++ arrow ++ b ++ arrow ++ c) = some ⟨trim a, trim b⟩) ∧
    Rule.parse "A -> B -> C".data = some ⟨"A".data, "B".data⟩ :=
  ⟨rule_parse_no_sep, rule_parse_one_sep, rule_parse_two_sep, by decide⟩

/-- C4 witness: exercises the discard conjunct, with trailing text after the
second separator. -/
theorem rule_parse_first_two_segments_witness :
    containsSeq arrow "A ".data = false ∧
    containsSeq arrow " B ".data = false ∧
    Rule.parse ("A ".data ++ arrow ++ " B ".data ++ arrow ++ " C".data)
      = some ⟨trim "A ".data, trim " B ".data⟩ :=
  ⟨by decide, by decide,
   rule_parse_first_two_segments.2.2.1 "A ".data " B ".data " C".data
     (by decide) (by decide)⟩

/-- C6: applying the single-rule set parsed from `"A -> F[-A]F[-A]+FA"` once
to the start string `"A"` yields exactly `"F[-A]F[-A]+FA"`. -/
theorem single_rule_example_rewrite :
    Rules.apply (Rules.parse "A -> F[-A]F[-A]+FA".data) "A".data
      = some "F[-A]F[-A]+FA".data := by decide

/-- C8: from any builder state with a non-empty branch stack, `Push`
immediately followed by `Pop` returns exactly the previous mesh and stack —
in particular the top branch's position, rotation, scale and trailing-edge
indices are identical to their values before the `Push`. -/
theorem push_then_pop_restores (fa : ℚ → Matrix) (mesh : Mesh)
    (stack : List Branch) (options : SystemOptions) (h : stack ≠ []) :
    apply_instruction fa (apply_instruction fa mesh stack options .push).1
      (apply_instruction fa mesh stack options .push).2 options .pop
      = (mesh, stack) := by
  cases stack with
  | nil => exact absurd rfl h
  | cons b rest => rfl

/-- Helper: `applyGo` only consults the rule list through `findRule`, so two
rule lists agreeing on `findRule` make `applyGo` agree everywhere. -/
theorem applyGo_congr_findRule (rs1 rs2 : List Rule)
    (h : ∀ s, findRule rs1 s = findRule rs2 s) :
    ∀ (l : List Char) (skip : Nat), applyGo rs1 l skip = applyGo rs2 l skip := by
  intro l
  induction l with
  | nil => intro skip; rfl
  | cons c rest ih => intro skip; simp only [applyGo, h, ih]

/-- C5: when several rules' patterns are a prefix match at the same scan
position, the first-listed rule is applied: two rules with the identical
pattern make the later one unreachable, so `Rules::apply` gives the same
output with or without it, for every input and every tail rule list. -/
theorem first_listed_rule_wins (p r1 r2 : List Char) (rs : List Rule)
    (input : List Char) :
    Rules.apply ⟨⟨p, r1⟩ :: ⟨p, r2⟩ :: rs⟩ input
      = Rules.apply ⟨⟨p, r1⟩ :: rs⟩ input := by
  unfold Rules.apply
  apply applyGo_congr_findRule
  intro s
  unfold findRule
  cases hp : p.isPrefixOf s <;> simp [List.find?, hp]

/-- C7: when no rule's pattern is a prefix match at any scan position of the
input (every non-empty suffix has no matching rule), `Rules::apply` returns
the input unchanged; with an empty rule list the hypothesis holds for every
input, so the empty rule set's `apply` is the identity. -/
theorem no_match_returns_input (rs : Rules) (input : List Char)
    (h : ∀ t ∈ input.tails, t ≠ [] → findRule rs.rules t = none) :
    Rules.apply rs input = some input := by
  unfold Rules.apply
  induction input with
  | nil => rfl
  | cons c rest ih =>
    have hc : findRule rs.rules (c :: rest) = none :=
      h (c :: rest) (by simp [List.mem_tails]) (by simp)
    have ih' : applyGo rs.rules rest 0 = some rest := by
      apply ih
      intro t ht hne
      exact h t (by
        rw [List.mem_tails] at ht ⊢
        exact ht.trans (List.suffix_cons c rest)) hne
    simp [applyGo, hc, ih']

/-- C7 witness. -/
theorem no_match_returns_input_witness :
    (∀ t ∈ "A".data.tails, t ≠ [] →
      findRule ({ rules := [⟨"B".data, "C".data⟩] } : Rules).rules t = none) ∧
    Rules.apply ⟨[⟨"B".data, "C".data⟩]⟩ "A".data = some "A".data :=
  ⟨by decide, no_match_returns_input ⟨[⟨"B".data, "C".data⟩]⟩ "A".data
    (by decide)⟩

/-- C9: `Instructions::apply` maps each character of the input, in order, to
its mapped instruction and emits nothing for unmapped characters (it is the
`filterMap` of the lookup); and the instruction set parsed from
`"F = forward 10\n[ = push\n] = pop"` applied to `"F[F]F"` yields exactly
`[Forward 10, Push, Forward 10, Pop, Forward 10]`. -/
theorem instructions_apply_maps_each_char :
    (∀ (m : Instructions) (input : List Char),
      Instructions.apply m input = input.filterMap m.get) ∧
    Instructions.apply
      (Instructions.parse "F = forward 10\n[ = push\n] = pop".data)
      "F[F]F".data
      = [.forward 10, .push, .forward 10, .pop, .forward 10] := by
  constructor
  · intro m input
    induction input with
    | nil => rfl
    | cons c rest ih =>
      cases hg : m.get c <;> simp [Instructions.apply, hg, ih]
  · decide

/-- C8 witness. -/
theorem push_then_pop_restores_witness :
    ([rootBranch] : List Branch) ≠ [] ∧
    apply_instruction faId
      (apply_instruction faId exampleMesh [rootBranch] exampleOptions .push).1
      (apply_instruction faId exampleMesh [rootBranch] exampleOptions .push).2
      exampleOptions .pop = (exampleMesh, [rootBranch]) :=
  ⟨by decide,
   push_then_pop_restores faId exampleMesh [rootBranch] exampleOptions
     (by decide)⟩

/-- Helper: wraparound of the successor of a residue stays below `a + 2`. -/
theorem mod_add_one_mod_lt (a n : Nat) (hn : 0 < n) :
    (a % n + 1) % n < a + 2 := by
  rcases Nat.lt_or_ge (a % n + 1) n with h | h
  · rw [Nat.mod_eq_of_lt h]
    have := Nat.mod_le a n
    omega
  · have hlt : a % n < n := Nat.mod_lt _ hn
    have heq : a % n + 1 = n := by omega
    rw [heq, Nat.mod_self]
    omega

/-- Helper: one `apply_instruction` step preserves the index-bound
invariant: all mesh indices, and both trailing-edge indices of every stacked
branch, stay strictly below the vertex count. -/
theorem apply_instruction_preserves_bounds (fa : ℚ → Matrix) (mesh : Mesh)
    (stack : List Branch) (options : SystemOptions) (ins : Instruction)
    (hm : ∀ i ∈ mesh.indices, i < mesh.vertices.length)
    (hs : ∀ b ∈ stack, b.indecies.1 < mesh.vertices.length ∧
      b.indecies.2 < mesh.vertices.length) :
    (∀ i ∈ (apply_instruction fa mesh stack options ins).1.indices,
      i < (apply_instruction fa mesh stack options ins).1.vertices.length) ∧
    (∀ b ∈ (apply_instruction fa mesh stack options ins).2,
      b.indecies.1 < (apply_instruction fa mesh stack options ins).1.vertices.length ∧
      b.indecies.2 < (apply_instruction fa mesh stack options ins).1.vertices.length) := by
  cases stack with
  | nil => exact ⟨hm, hs⟩
  | cons br rest =>
    have hbr := hs br (List.mem_cons_self br rest)
    have hmod := Nat.mod_le mesh.vertices.length (2 ^ 32)
    have hmod1 := mod_add_one_mod_lt mesh.vertices.length (2 ^ 32)
      (Nat.two_pow_pos 32)
    cases ins with
    | forward len =>
      constructor
      · intro i hi
        simp only [apply_instruction, List.mem_append, List.mem_cons,
          List.not_mem_nil, or_false] at hi
        simp only [apply_instruction, List.length_append, List.length_cons,
          List.length_nil]
        rcases hi with hi | rfl | rfl | rfl | rfl | rfl | rfl
        · have := hm i hi
          omega
        · omega
        · omega
        · omega
        · omega
        · omega
        · omega
      · intro b hb
        simp only [apply_instruction, List.mem_cons] at hb
        simp only [apply_instruction, List.length_append, List.length_cons,
          List.length_nil]
        rcases hb with rfl | hb
        · exact ⟨by simp; omega, by simp; omega⟩
        · have := hs b (List.mem_cons_of_mem br hb)
          omega
    | turn angle =>
      refine ⟨hm, fun b hb => ?_⟩
      simp only [apply_instruction, List.mem_cons] at hb
      rcases hb with rfl | hb
      · exact hbr
      · exact hs b (List.mem_cons_of_mem br hb)
    | scale s =>
      refine ⟨hm, fun b hb => ?_⟩
      simp only [apply_instruction, List.mem_cons] at hb
      rcases hb with rfl | hb
      · exact hbr
      · exact hs b (List.mem_cons_of_mem br hb)
    | push =>
      refine ⟨hm, fun b hb => ?_⟩
      simp only [apply_instruction, List.mem_cons] at hb
      rcases hb with rfl | rfl | hb
      · exact hbr
      · exact hbr
      · exact hs b (List.mem_cons_of_mem br hb)
    | pop =>
      refine ⟨hm, fun b hb => ?_⟩
      simp only [apply_instruction] at hb
      exact hs b (List.mem_cons_of_mem br hb)

/-- Helper: the invariant carries through the instruction fold of
`generate_mesh`. -/
theorem gen_fold_bounds (fa : ℚ → Matrix) (options : SystemOptions) :
    ∀ (instrs : List Instruction) (mesh : Mesh) (stack : List Branch),
      (∀ i ∈ mesh.indices, i < mesh.vertices.length) →
      (∀ b ∈ stack, b.indecies.1 < mesh.vertices.length ∧
        b.indecies.2 < mesh.vertices.length) →
      ∀ i ∈ (instrs.foldl
          (fun st ins => apply_instruction fa st.1 st.2 options ins)
          (mesh, stack)).1.indices,
        i < (instrs.foldl
          (fun st ins => apply_instruction fa st.1 st.2 options ins)
          (mesh, stack)).1.vertices.length := by
  intro instrs
  induction instrs with
  | nil => intro mesh stack hm _; exact hm
  | cons ins rest ih =>
    intro mesh stack hm hs
    have hstep :=
      apply_instruction_preserves_bounds fa mesh stack options ins hm hs
    have hrec := ih (apply_instruction fa mesh stack options ins).1
      (apply_instruction fa mesh stack options ins).2 hstep.1 hstep.2
    simpa [List.foldl_cons, Prod.mk.eta] using hrec

/-- C10: for every rotation interpretation, options value and instruction
sequence, every triangle index of the mesh produced by `generate_mesh` is
strictly below the number of vertices of that mesh, so every index
references an existing vertex (the stronger at-append-time bound is the
invariant of the preceding lemmas). -/
theorem mesh_indices_reference_existing_vertices (fa : ℚ → Matrix)
    (options : SystemOptions) (instructions : List Instruction) :
    ∀ i ∈ (generate_mesh fa options instructions).indices,
      i < (generate_mesh fa options instructions).vertices.length := by
  simp only [generate_mesh, gen_state]
  apply gen_fold_bounds
  · intro i hi
    simp at hi
  · intro b hb
    simp only [List.mem_cons, List.not_mem_nil, or_false] at hb
    subst hb
    exact ⟨by simp, by simp⟩

/-- C10 witness. -/
theorem mesh_indices_reference_existing_vertices_witness :
    0 ∈ (generate_mesh faId exampleOptions [Instruction.forward 10]).indices ∧
    0 < (generate_mesh faId exampleOptions
      [Instruction.forward 10]).vertices.length :=
  ⟨by decide,
   mesh_indices_reference_existing_vertices faId exampleOptions
     [Instruction.forward 10] 0 (by decide)⟩

end Lily
